import Mathlib

/-!
Verification of the tabular-formatting core of the polaris-client library.

The Python modules `util.py`, `base_table.py`, `html_table.py` and
`display.py` are shallowly embedded below.  Python cell values are the
inductive `Value` (Python `None` is `Value.null`, the "hole"); Python lists
are Lean lists; raising an exception is returning `Except.error`; mutation
of the stored alignment vector and of heap-allocated lists is made explicit
(threaded state for `find_alignments`, a list-of-lists store for the
padding utilities).
-/

namespace Polaris

set_option autoImplicit false

/-- A Python scalar cell value; `null` models Python `None` (a "hole"). -/
inductive Value where
  | null : Value
  | str : String → Value
  | int : Int → Value
  | bool : Bool → Value
deriving DecidableEq

/-- A table row: an ordered sequence of cell values (possibly ragged). -/
abbrev Row := List Value

/-- A stored alignment vector: each entry is `none` (Python `None`, UNSET)
or an alignment code. -/
abbrev AlignVec := List (Option Nat)

/-- Python exceptions that the embedded code can raise. -/
inductive PyErr where
  | indexError : PyErr
  | typeError : PyErr
  | valueError : String → PyErr
deriving DecidableEq

def ALIGN_LEFT : Nat := 0
def ALIGN_CENTER : Nat := 1
def ALIGN_RIGHT : Nat := 2

/-- Python `str(v)` on the scalar values used by the renderers. -/
def pyStr : Value → String
  | .null => "None"
  | .str s => s
  | .int n => toString n
  | .bool b => if b then "True" else "False"

/-- Python `s + v` for a string `s`: concatenation if `v` is a string,
otherwise a `TypeError` (no implicit conversion). -/
def pyStrAdd (s : String) (v : Value) : Except PyErr String :=
  match v with
  | .str t => .ok (s ++ t)
  | _ => .error .typeError

/-- True exactly for string values. -/
def Value.isStr : Value → Bool
  | .str _ => true
  | _ => false

/-! ### util.py -/

/-- Embeds `util.pad(array, width, fill)`: appends `fill` until the length
reaches `width` (the value produced; in-place mutation is modelled by the
store functions below). -/
def pad_list {α : Type} (array : List α) (width : Nat) (fill : α) : List α :=
  array ++ List.replicate (width - array.length) fill

/-- Embeds `util.padded(array, width, fill)` at the value level: returns
`array` itself when it is non-None and already at least `width` long,
otherwise pads a copy (an absent array counts as empty). -/
def padded_list {α : Type} (array : Option (List α)) (width : Nat) (fill : α) : List α :=
  match array with
  | some a => if width ≤ a.length then a else pad_list a width fill
  | none => pad_list [] width fill

/-- Whether `util.padded` returns its argument by reference (no copy):
exactly when the argument is non-None and already at least `width` long. -/
def padded_aliases {α : Type} (array : Option (List α)) (width : Nat) : Bool :=
  match array with
  | some a => width ≤ a.length
  | none => false

/-- A store of heap-allocated Python lists, for the mutation claims:
a reference is an index into the store. -/
def store_get {α : Type} (h : List (List α)) (r : Nat) : List α :=
  (h.get? r).getD []

/-- Embeds `util.pad` with its heap effect: extends the list at reference
`r` in place and returns the same reference. -/
def pyPad {α : Type} (h : List (List α)) (r : Nat) (width : Nat) (fill : α) :
    List (List α) × Nat :=
  (h.set r (pad_list (store_get h r) width fill), r)

/-- Embeds `util.padded` with its heap effect: returns the argument
reference unchanged when it is already long enough, otherwise allocates a
fresh list (`copy()` then `pad`); a `none` argument allocates from empty. -/
def pyPadded {α : Type} (h : List (List α)) (r : Option Nat) (width : Nat) (fill : α) :
    List (List α) × Nat :=
  match r with
  | some i =>
    if width ≤ (store_get h i).length then (h, i)
    else (h ++ [pad_list (store_get h i) width fill], h.length)
  | none => (h ++ [pad_list [] width fill], h.length)

/-! ### base_table.py -/

/-- The loop of `BaseTable.row_width`: folds each row's length into the
running `(min_width, max_width)` pair exactly as the source does
(`max_width = max(max_width, len(row))` followed by
`min_width = max_width if min_width is None else min(min_width, max_width)`). -/
def row_width_loop : List Row → Option Nat → Nat → Option Nat × Nat
  | [], minw, maxw => (minw, maxw)
  | row :: rows, minw, maxw =>
    let maxw2 := max maxw row.length
    let minw2 : Option Nat :=
      match minw with
      | none => some maxw2
      | some m => some (min m maxw2)
    row_width_loop rows minw2 maxw2

/-- Embeds `BaseTable.row_width(rows)`; `sh` is the stored `_headers`. -/
def row_width (sh : Option (List Value)) (rows : List Row) : Nat × Nat :=
  let init : Option Nat × Nat :=
    match sh with
    | some hs => (some hs.length, hs.length)
    | none => (none, 0)
  let res := row_width_loop rows init.1 init.2
  (res.1.getD res.2, res.2)

/-- The `unknown_count` loop of `find_alignments`: number of `None`
entries in the alignment vector. -/
def countNone : AlignVec → Nat
  | [] => 0
  | none :: rest => countNone rest + 1
  | some _ :: rest => countNone rest

/-- The source's type dispatch: `type(v) is str` gives LEFT, every other
(non-None) value gives RIGHT. -/
def alignOf : Value → Nat
  | .str _ => ALIGN_LEFT
  | _ => ALIGN_RIGHT

/-- Outcome of the inner row scan of `find_alignments`: either the early
`return align` (when `unknown_count` reached 0) or the end of the row with
the updated vector and count. -/
inductive RowOut where
  | early : AlignVec → RowOut
  | done : AlignVec → Nat → RowOut

/-- The inner loop `for i in range(len(row))` of `find_alignments`,
walking index `i` through `row` against the alignment vector `a` with
`unknown_count = u`.  Reading `align[i]` past the end of `a` raises
`IndexError`; an error carries the vector as mutated so far. -/
def scan_row : List Value → Nat → AlignVec → Nat → Except (PyErr × AlignVec) RowOut
  | [], _, a, u => .ok (.done a u)
  | v :: rest, i, a, u =>
    match a.get? i with
    | none => .error (.indexError, a)
    | some (some _) => scan_row rest (i + 1) a u
    | some none =>
      if v = Value.null then scan_row rest (i + 1) a u
      else
        let a2 := a.set i (some (alignOf v))
        if u - 1 = 0 then .ok (.early a2)
        else scan_row rest (i + 1) a2 (u - 1)

/-- The trailing `for i in range(width)` loop of `find_alignments`:
defaults the first `width` entries that are still `None` to LEFT.  At
every call site the vector has length at least `width`, so the source's
`align[i]` never goes out of range here. -/
def default_left : AlignVec → Nat → AlignVec
  | a, 0 => a
  | [], _ + 1 => []
  | none :: rest, w + 1 => some ALIGN_LEFT :: default_left rest w
  | some x :: rest, w + 1 => some x :: default_left rest w

/-- The outer `for row in rows` loop of `find_alignments`, followed by the
defaulting loop when the rows are exhausted. -/
def scan_rows : List Row → AlignVec → Nat → Nat → Except (PyErr × AlignVec) AlignVec
  | [], a, _, width => .ok (default_left a width)
  | row :: rows, a, u, width =>
    match scan_row row 0 a u with
    | .error e => .error e
    | .ok (.early a2) => .ok a2
    | .ok (.done a2 u2) => scan_rows rows a2 u2 width

/-- Result of a `find_alignments` call: the new value of the stored
`_align` attribute (it is mutated in place when `padded` returned it by
reference) and the returned vector or raised exception. -/
structure FAOut where
  store : Option AlignVec
  result : Except PyErr AlignVec

/-- Embeds `BaseTable.find_alignments(rows, width)`; `sa` is the stored
`_align`.  `align = padded(self._align, width, None)` aliases the stored
list exactly when that list is at least `width` long, in which case every
in-place update of `align` is an update of the stored vector. -/
def find_alignments (sa : Option AlignVec) (rows : List Row) (width : Nat) : FAOut :=
  let a := padded_list sa width (none : Option Nat)
  let u := countNone a
  if u = 0 then ⟨sa, .ok a⟩
  else
    match scan_rows rows a u width with
    | .ok res => ⟨if padded_aliases sa width then some res else sa, .ok res⟩
    | .error (e, ap) => ⟨if padded_aliases sa width then some ap else sa, .error e⟩

/-- Embeds `BaseTable.pad_rows(rows, width)`: a new list holding
`padded(row, width, None)` for each row. -/
def pad_rows (rows : List Row) (width : Nat) : List Row :=
  rows.map (fun r => padded_list (some r) width Value.null)

/-- The `has_none` scan of `pad_headers`. -/
def has_null (hs : List Value) : Bool :=
  hs.any (fun v => match v with | .null => true | _ => false)

/-- Embeds `BaseTable.pad_headers(width)`; `sh` is the stored `_headers`.
Returns `none` (Python `None`) when headers are absent or empty; returns
the stored list unchanged when it is long enough and hole-free; otherwise
copies, replaces holes by empty strings, and pads with empty strings. -/
def pad_headers (sh : Option (List Value)) (width : Nat) : Option (List Value) :=
  match sh with
  | none => none
  | some hs =>
    if hs.length = 0 then none
    else if width ≤ hs.length ∧ has_null hs = false then some hs
    else
      let hs2 := if has_null hs then
          hs.map (fun v => match v with | .null => Value.str "" | _ => v)
        else hs
      some (pad_list hs2 width (Value.str ""))

/-! ### html_table.py -/

/-- The module-level `alignments` list of CSS class names. -/
def alignment_classes : List String := ["druid-left", "druid-center", "druid-right"]

/-- Embeds `start_tag(tag, align)`: opens the tag, adding a class
attribute when an alignment was supplied; `alignments[align]` raises
`IndexError` when the stored code is out of range. -/
def start_tag (tag : String) (align : Option Nat) : Except PyErr String :=
  match align with
  | none => .ok ("<" ++ tag ++ ">")
  | some a =>
    match alignment_classes.get? a with
    | none => .error .indexError
    | some cls => .ok ("<" ++ tag ++ " class=\"" ++ cls ++ "\">")

/-- Embeds `HtmlTable.col_align(col)`; `sa` is the stored `_align`:
Python `None` when the vector is absent or too short, otherwise the stored
entry itself (which may also be `None`). -/
def col_align (sa : Option AlignVec) (col : Nat) : Option Nat :=
  match sa with
  | none => none
  | some a => if a.length ≤ col then none else (a.get? col).getD none

/-- The loop of `HtmlTable.gen_header`: `start_tag('th', col_align(i)) +
headers[i] + '</th>'` for each header cell; the bare `+ headers[i]`
concatenation raises `TypeError` on any non-string value. -/
def gen_header_loop (sa : Option AlignVec) : List Value → Nat → Except PyErr String
  | [], _ => .ok ""
  | v :: rest, i =>
    match start_tag "th" (col_align sa i) with
    | .error e => .error e
    | .ok st =>
      match pyStrAdd st v with
      | .error e => .error e
      | .ok s =>
        match gen_header_loop sa rest (i + 1) with
        | .error e => .error e
        | .ok t => .ok (s ++ "</th>" ++ t)

/-- Embeds `HtmlTable.gen_header(headers)`. -/
def gen_header (sa : Option AlignVec) (headers : Option (List Value)) : Except PyErr String :=
  match headers with
  | none => .ok ""
  | some hs =>
    if hs.length = 0 then .ok ""
    else
      match gen_header_loop sa hs 0 with
      | .error e => .error e
      | .ok b => .ok ("<tr>" ++ b ++ "</tr>\n")

/-- The inner loop of `HtmlTable.gen_rows`: one `<td>` per cell, holes
rendered as the empty string, other values via `str(cell)`. -/
def gen_row_loop (sa : Option AlignVec) : List Value → Nat → Except PyErr String
  | [], _ => .ok ""
  | v :: rest, i =>
    match start_tag "td" (col_align sa i) with
    | .error e => .error e
    | .ok st =>
      let value := if v = Value.null then "" else pyStr v
      match gen_row_loop sa rest (i + 1) with
      | .error e => .error e
      | .ok t => .ok (st ++ value ++ "</td>" ++ t)

/-- The outer loop of `HtmlTable.gen_rows`: collects one `<tr>` string per
row. -/
def gen_rows_loop (sa : Option AlignVec) : List Row → Except PyErr (List String)
  | [] => .ok []
  | r :: rs =>
    match gen_row_loop sa r 0 with
    | .error e => .error e
    | .ok body =>
      match gen_rows_loop sa rs with
      | .error e => .error e
      | .ok t => .ok (("<tr>" ++ body ++ "</tr>") :: t)

/-- Embeds `HtmlTable.gen_rows(rows)`: the row strings joined by
newlines. -/
def gen_rows (sa : Option AlignVec) (rows : List Row) : Except PyErr String :=
  match gen_rows_loop sa rows with
  | .error e => .error e
  | .ok l => .ok (String.intercalate "\n" l)

/-- The instance state of an `HtmlTable`: stored headers and stored
alignment vector (`_col_fmt` is never consumed). -/
structure HtmlState where
  headers : Option (List Value)
  align : Option AlignVec

/-- Embeds `HtmlTable.format(rows)`: computes the width, pads headers and
rows, and emits the markup.  Note the source never calls
`find_alignments`; the cell tags consult only the stored `_align`. -/
def html_format (st : HtmlState) (rows : List Row) : Except PyErr String :=
  let width := (row_width st.headers rows).2
  let headers := pad_headers st.headers width
  let rows2 := pad_rows rows width
  match gen_header st.align headers with
  | .error e => .error e
  | .ok h =>
    match gen_rows st.align rows2 with
    | .error e => .error e
    | .ok b => .ok ("<table>\n" ++ h ++ b ++ "\n</table>")

/-! ### display.py -/

def TEXT_TABLE : Nat := 0
def HTML_TABLE : Nat := 1

/-- The instance state of a `Display`. -/
structure DisplayState where
  format : Nat
  html_initialized : Bool
deriving DecidableEq

/-- `Display.__init__`. -/
def display_init : DisplayState := ⟨TEXT_TABLE, false⟩

/-- `Display.text()`. -/
def display_text (d : DisplayState) : DisplayState :=
  { d with format := TEXT_TABLE }

/-- `Display.html()`: switches the format and emits the style block
(returned count 1) only when `html_initialized` is still false. -/
def display_html (d : DisplayState) : DisplayState × Nat :=
  if d.html_initialized then ({ d with format := HTML_TABLE }, 0)
  else (⟨HTML_TABLE, true⟩, 1)

/-- Mode-switching operations on a single `Display` instance. -/
inductive DOp where
  | text : DOp
  | html : DOp

/-- Runs a sequence of mode switches on one `Display` instance, counting
how many times the style block is emitted. -/
def drun : List DOp → DisplayState → DisplayState × Nat
  | [], d => (d, 0)
  | .text :: ops, d => drun ops (display_text d)
  | .html :: ops, d =>
    let r := display_html d
    let s := drun ops r.1
    (s.1, r.2 + s.2)

/-- Process-level operations: constructing a new `Display` instance, or
switching the mode of an existing instance. -/
inductive POp where
  | newDisplay : POp
  | textOp : Nat → POp
  | htmlOp : Nat → POp

/-- Process state: all `Display` instances created so far, and the total
number of style-block emissions in the process. -/
structure PState where
  displays : List DisplayState
  emitted : Nat
deriving DecidableEq

/-- Looks up a `Display` instance by reference. -/
def store_display (ds : List DisplayState) (i : Nat) : DisplayState :=
  (ds.get? i).getD display_init

/-- One process step. -/
def pstep (s : PState) : POp → PState
  | .newDisplay => ⟨s.displays ++ [display_init], s.emitted⟩
  | .textOp i => ⟨s.displays.set i (display_text (store_display s.displays i)), s.emitted⟩
  | .htmlOp i =>
    let r := display_html (store_display s.displays i)
    ⟨s.displays.set i r.1, s.emitted + r.2⟩

/-- Runs a whole process lifetime from no displays and nothing emitted. -/
def prun (ops : List POp) : PState :=
  ops.foldl pstep ⟨[], 0⟩

/-- An object (Python dict) as an association list in insertion order. -/
abbrev Obj := List (String × Value)

/-- Embeds `infer_keys(data)` for a list argument: `data = data[0]` raises
`IndexError` on an empty list; otherwise the first object's keys, each its
own label. -/
def infer_keys_list (objects : List Obj) : Except PyErr (List (String × String)) :=
  match objects with
  | [] => .error .indexError
  | o :: _ => .ok (o.map (fun kv => (kv.1, kv.1)))

/-- Embeds `list_to_table(table, objects, cols)` up to the hand-off to the
table: yields the header labels and the rows (missing keys become holes,
via `obj.get(key)`). -/
def list_to_table (objects : List Obj) (cols : Option (List (String × String))) :
    Except PyErr (List Value × List Row) :=
  match (match cols with | none => infer_keys_list objects | some c => .ok c) with
  | .error e => .error e
  | .ok keys =>
    .ok (keys.map (fun kv => Value.str kv.2),
      objects.map (fun o => keys.map (fun kv => ((o.lookup kv.1).getD Value.null))))

/-! ### Spec-side definitions (stated from the spec's words, for the
refinement claims) -/

/-- Follows the spec's words for alignment inference: the first non-hole
value in column `i`, scanning rows top to bottom (a cell beyond a row's
end is a hole). -/
def firstNonHole : List Row → Nat → Option Value
  | [], _ => none
  | r :: rs, i =>
    match r.get? i with
    | some v => if v = Value.null then firstNonHole rs i else some v
    | none => firstNonHole rs i

/-- Follows the spec's words for one resolved column: an explicit stored
entry wins; otherwise the first non-hole value decides by type; a column
of holes defaults to LEFT. -/
def inferSpec (sa : Option AlignVec) (rows : List Row) (width i : Nat) : Nat :=
  match (padded_list sa width (none : Option Nat)).get? i with
  | some (some v) => v
  | _ =>
    match firstNonHole rows i with
    | some v => alignOf v
    | none => ALIGN_LEFT

/-- Follows the spec's words for the whole vector returned by
`find_alignments`: every column below `width` is resolved per `inferSpec`;
entries at or beyond `width` (present only when the stored vector is
longer than `width`) are returned as stored. -/
def spec_result (sa : Option AlignVec) (rows : List Row) (width : Nat) : AlignVec :=
  let a0 := padded_list sa width (none : Option Nat)
  (List.range a0.length).map fun i =>
    if i < width then some (inferSpec sa rows width i) else (a0.get? i).getD none

/-- The greatest row length (0 when there are no rows). -/
def maxRowLen (rows : List Row) : Nat :=
  rows.foldr (fun r m => max r.length m) 0

/-- The stored header count (0 when headers are absent). -/
def headerLen (sh : Option (List Value)) : Nat :=
  match sh with
  | none => 0
  | some hs => hs.length

/-- Bool check used to state the width invariant for padded headers:
absent headers are fine; present padded headers must have exactly the
table width and at least the original length. -/
def header_width_ok (ph : Option (List Value)) (width orig : Nat) : Bool :=
  match ph with
  | none => true
  | some hs => decide (hs.length = width) && decide (orig ≤ hs.length)

/-- Bool check that every stored alignment entry is a valid code (below
3), so that `alignments[align]` cannot raise in `start_tag`. -/
def align_entries_ok (sa : Option AlignVec) : Bool :=
  match sa with
  | none => true
  | some a => a.all (fun x => match x with | none => true | some n => decide (n < 3))

/-- True for a hole or a string value. -/
def nullOrStr : Value → Bool
  | .null => true
  | .str _ => true
  | _ => false

/-- Bool check that every header entry is a hole or a string (the
condition under which `gen_header` cannot raise `TypeError`). -/
def headers_all_str (sh : Option (List Value)) : Bool :=
  (sh.getD []).all nullOrStr

/-- Whether an `Except` computation succeeded. -/
def except_ok {ε σ : Type} : Except ε σ → Bool
  | .ok _ => true
  | .error _ => false

/-- Mathematical effect of one pass of the `find_alignments` inner loop
over a row starting at column `i`: resolves each still-unset entry whose
cell is a non-hole, without the early exit (used to state what `scan_row`
computes; the early exit cannot change any entry). -/
def applyRowAt : AlignVec → List Value → Nat → AlignVec
  | a, [], _ => a
  | a, v :: row, i =>
    applyRowAt
      (match a.get? i with
        | some none => if v = Value.null then a else a.set i (some (alignOf v))
        | _ => a)
      row (i + 1)

/-- Mathematical effect of the full top-to-bottom scan of
`find_alignments` over all rows. -/
def applyRowsAt : AlignVec → List Row → AlignVec
  | a, [] => a
  | a, r :: rs => applyRowsAt (applyRowAt a r 0) rs

/-! ### Helper lemmas -/

theorem drun_emits_le (ops : List DOp) (d : DisplayState) :
    (drun ops d).2 ≤ (if d.html_initialized then 0 else 1) := by
  induction ops generalizing d with
  | nil => simp [drun]
  | cons op ops ih =>
    cases op with
    | text =>
      have h := ih (display_text d)
      simpa [drun, display_text] using h
    | html =>
      by_cases h : d.html_initialized = true
      · have hr := ih ({ d with format := HTML_TABLE })
        simp [drun, display_html, h] at hr ⊢
        omega
      · have hb : d.html_initialized = false := by
          cases hd : d.html_initialized
          · rfl
          · exact absurd hd h
        have hr := ih ⟨HTML_TABLE, true⟩
        simp [drun, display_html, hb] at hr ⊢
        omega

theorem get?_set_self {α : Type} (l : List α) (i : Nat) (x : α) (h : i < l.length) :
    (l.set i x).get? i = some x := by
  induction l generalizing i with
  | nil => cases h
  | cons y ys ih =>
    cases i with
    | zero => rfl
    | succ n => exact ih n (Nat.lt_of_succ_lt_succ h)

theorem get?_set_ne {α : Type} (l : List α) (i j : Nat) (x : α) (h : i ≠ j) :
    (l.set i x).get? j = l.get? j := by
  induction l generalizing i j with
  | nil => rfl
  | cons y ys ih =>
    cases i with
    | zero =>
      cases j with
      | zero => exact absurd rfl h
      | succ m => rfl
    | succ n =>
      cases j with
      | zero => rfl
      | succ m => exact ih n m (fun he => h (by rw [he]))

theorem lt_length_of_get?_some {α : Type} {l : List α} {n : Nat} {x : α}
    (h : l.get? n = some x) : n < l.length := by
  induction l generalizing n with
  | nil => cases h
  | cons y ys ih =>
    cases n with
    | zero => exact Nat.succ_pos _
    | succ m => exact Nat.succ_lt_succ (ih h)

theorem set_store_get_self {α : Type} (l : List (List α)) (r : Nat) (h : r < l.length) :
    l.set r (store_get l r) = l := by
  induction l generalizing r with
  | nil => cases h
  | cons y ys ih =>
    cases r with
    | zero => rfl
    | succ n =>
      have := ih n (Nat.lt_of_succ_lt_succ h)
      simp only [List.set, store_get, List.get?] at this ⊢
      rw [this]

theorem length_le_maxRowLen {r : Row} {rows : List Row} (h : r ∈ rows) :
    r.length ≤ maxRowLen rows := by
  induction rows with
  | nil => cases h
  | cons x xs ih =>
    rcases List.mem_cons.mp h with h1 | h2
    · subst h1
      exact Nat.le_max_left _ _
    · exact Nat.le_trans (ih h2) (Nat.le_max_right _ _)

theorem row_width_loop_snd (rows : List Row) (minw : Option Nat) (maxw : Nat) :
    (row_width_loop rows minw maxw).2 = max maxw (maxRowLen rows) := by
  induction rows generalizing minw maxw with
  | nil => simp [row_width_loop, maxRowLen]
  | cons r rs ih =>
    show (row_width_loop rs _ (max maxw r.length)).2 = _
    rw [ih]
    show max (max maxw r.length) (maxRowLen rs) = max maxw (max r.length (maxRowLen rs))
    rw [Nat.max_assoc]

theorem row_width_snd (sh : Option (List Value)) (rows : List Row) :
    (row_width sh rows).2 = max (headerLen sh) (maxRowLen rows) := by
  cases sh with
  | none =>
    show (row_width_loop rows none 0).2 = _
    rw [row_width_loop_snd]
    simp [headerLen]
  | some hs =>
    show (row_width_loop rows (some hs.length) hs.length).2 = _
    rw [row_width_loop_snd]
    rfl

theorem map_congr_mem {α β : Type} (l : List α) (f g : α → β)
    (h : ∀ a ∈ l, f a = g a) : l.map f = l.map g := by
  induction l with
  | nil => rfl
  | cons x xs ih =>
    simp only [List.map]
    rw [h x (by simp), ih (fun a ha => h a (by simp [ha]))]

theorem padded_some_of_le {α : Type} (a : List α) (w : Nat) (f : α) (h : a.length ≤ w) :
    padded_list (some a) w f = a ++ List.replicate (w - a.length) f := by
  by_cases hw : w ≤ a.length
  · have hz : w - a.length = 0 := Nat.sub_eq_zero_of_le hw
    simp [padded_list, hw, hz]
  · simp [padded_list, hw, pad_list]

theorem pad_list_length {α : Type} (a : List α) (w : Nat) (f : α) (h : a.length ≤ w) :
    (pad_list a w f).length = w := by
  simp [pad_list]
  omega

theorem col_align_lt (sa : Option AlignVec) (hal : align_entries_ok sa = true)
    (i n : Nat) (h : col_align sa i = some n) : n < 3 := by
  cases sa with
  | none => simp [col_align] at h
  | some a =>
    simp only [col_align] at h
    by_cases hc : a.length ≤ i
    · rw [if_pos hc] at h
      cases h
    · rw [if_neg hc] at h
      cases hg : a.get? i with
      | none =>
        rw [hg] at h
        cases h
      | some e =>
        rw [hg] at h
        have he : e = some n := h
        subst he
        have hmem : some n ∈ a := List.get?_mem hg
        simp only [align_entries_ok] at hal
        have := (List.all_eq_true.mp hal) _ hmem
        simpa using this

theorem start_tag_ok (t : String) (al : Option Nat) (h3 : ∀ n, al = some n → n < 3) :
    ∃ s, start_tag t al = .ok s := by
  cases al with
  | none => exact ⟨_, rfl⟩
  | some n =>
    have hn := h3 n rfl
    rcases n with _ | _ | _ | n
    · exact ⟨_, rfl⟩
    · exact ⟨_, rfl⟩
    · exact ⟨_, rfl⟩
    · exact absurd hn (by omega)

theorem gen_row_loop_ok (sa : Option AlignVec) (hal : align_entries_ok sa = true)
    (row : List Value) (i : Nat) : ∃ s, gen_row_loop sa row i = .ok s := by
  induction row generalizing i with
  | nil => exact ⟨_, rfl⟩
  | cons v rest ih =>
    obtain ⟨st, hst⟩ := start_tag_ok "td" (col_align sa i)
      (fun n hn => col_align_lt sa hal i n hn)
    obtain ⟨t, ht⟩ := ih (i + 1)
    have heq : gen_row_loop sa (v :: rest) i
        = .ok (st ++ (if v = Value.null then "" else pyStr v) ++ "</td>" ++ t) := by
      simp only [gen_row_loop, hst, ht]
    exact ⟨_, heq⟩

theorem gen_rows_ok (sa : Option AlignVec) (hal : align_entries_ok sa = true)
    (rows : List Row) : ∃ s, gen_rows sa rows = .ok s := by
  suffices h : ∃ l, gen_rows_loop sa rows = .ok l by
    obtain ⟨l, hl⟩ := h
    exact ⟨String.intercalate "\n" l, by simp only [gen_rows, hl]⟩
  induction rows with
  | nil => exact ⟨_, rfl⟩
  | cons r rs ih =>
    obtain ⟨body, hb⟩ := gen_row_loop_ok sa hal r 0
    obtain ⟨t, ht⟩ := ih
    have heq : gen_rows_loop sa (r :: rs) = .ok (("<tr>" ++ body ++ "</tr>") :: t) := by
      simp only [gen_rows_loop, hb, ht]
    exact ⟨_, heq⟩

theorem gen_header_loop_all (sa : Option AlignVec) (hal : align_entries_ok sa = true)
    (hs : List Value) (i : Nat) :
    except_ok (gen_header_loop sa hs i) = hs.all Value.isStr := by
  induction hs generalizing i with
  | nil => rfl
  | cons v rest ih =>
    obtain ⟨st, hst⟩ := start_tag_ok "th" (col_align sa i)
      (fun n hn => col_align_lt sa hal i n hn)
    have hih := ih (i + 1)
    cases v with
    | str s =>
      cases hrec : gen_header_loop sa rest (i + 1) with
      | error e =>
        rw [hrec] at hih
        simp only [gen_header_loop, hst, pyStrAdd, hrec, List.all_cons, Value.isStr,
          Bool.true_and, except_ok] at hih ⊢
        exact hih
      | ok t =>
        rw [hrec] at hih
        simp only [gen_header_loop, hst, pyStrAdd, hrec, List.all_cons, Value.isStr,
          Bool.true_and, except_ok] at hih ⊢
        exact hih
    | null =>
      simp only [gen_header_loop, hst, pyStrAdd, List.all_cons, Value.isStr,
        Bool.false_and, except_ok]
    | int n =>
      simp only [gen_header_loop, hst, pyStrAdd, List.all_cons, Value.isStr,
        Bool.false_and, except_ok]
    | bool b =>
      simp only [gen_header_loop, hst, pyStrAdd, List.all_cons, Value.isStr,
        Bool.false_and, except_ok]

theorem has_null_false_all (hs : List Value) (hn : has_null hs = false) :
    hs.all Value.isStr = hs.all nullOrStr := by
  induction hs with
  | nil => rfl
  | cons v rest ih =>
    simp only [has_null, List.any_cons, Bool.or_eq_false_iff] at hn
    have hrest : has_null rest = false := hn.2
    cases v with
    | null => cases hn.1
    | str s => simp [Value.isStr, nullOrStr, ih hrest]
    | int n => simp [Value.isStr, nullOrStr, ih hrest]
    | bool b => simp [Value.isStr, nullOrStr, ih hrest]

theorem map_null_all (hs : List Value) :
    (hs.map (fun v => match v with | .null => Value.str "" | _ => v)).all Value.isStr
      = hs.all nullOrStr := by
  induction hs with
  | nil => rfl
  | cons v rest ih =>
    cases v <;> simp [Value.isStr, nullOrStr, ih]

theorem all_replicate_str (n : Nat) :
    (List.replicate n (Value.str "")).all Value.isStr = true := by
  induction n with
  | zero => rfl
  | succ m ih => simp [List.replicate_succ, ih, Value.isStr]

theorem pad_headers_all (sh : Option (List Value)) (width : Nat) (ph : List Value)
    (h : pad_headers sh width = some ph) :
    ph.all Value.isStr = headers_all_str sh := by
  cases sh with
  | none => cases h
  | some hs =>
    simp only [pad_headers] at h
    by_cases h0 : hs.length = 0
    · rw [if_pos h0] at h
      cases h
    · rw [if_neg h0] at h
      by_cases hc : width ≤ hs.length ∧ has_null hs = false
      · rw [if_pos hc] at h
        injection h with h
        subst h
        exact has_null_false_all _ hc.2
      · rw [if_neg hc] at h
        injection h with h
        subst h
        unfold pad_list
        rw [List.all_append, all_replicate_str, Bool.and_true]
        by_cases hn : has_null hs
        · rw [if_pos hn]
          exact map_null_all hs
        · rw [if_neg hn]
          exact has_null_false_all hs (by simpa using hn)

theorem pad_headers_eq_none (sh : Option (List Value)) (width : Nat)
    (h : pad_headers sh width = none) : headers_all_str sh = true := by
  cases sh with
  | none => rfl
  | some hs =>
    simp only [pad_headers] at h
    by_cases h0 : hs.length = 0
    · have hnil : hs = [] := List.length_eq_zero.mp h0
      subst hnil
      rfl
    · rw [if_neg h0] at h
      by_cases hc : width ≤ hs.length ∧ has_null hs = false
      · rw [if_pos hc] at h
        cases h
      · rw [if_neg hc] at h
        cases h

theorem pad_headers_ne_nil (sh : Option (List Value)) (width : Nat) (ph : List Value)
    (h : pad_headers sh width = some ph) : ¬ ph.length = 0 := by
  cases sh with
  | none => cases h
  | some hs =>
    simp only [pad_headers] at h
    by_cases h0 : hs.length = 0
    · rw [if_pos h0] at h
      cases h
    · rw [if_neg h0] at h
      by_cases hc : width ≤ hs.length ∧ has_null hs = false
      · rw [if_pos hc] at h
        injection h with h
        subst h
        exact h0
      · rw [if_neg hc] at h
        injection h with h
        subst h
        have hl2 : (if has_null hs then
            hs.map (fun v => match v with | .null => Value.str "" | _ => v)
            else hs).length = hs.length := by
          by_cases hn : has_null hs <;> simp [hn]
        unfold pad_list
        simp only [List.length_append, List.length_replicate, hl2]
        omega

theorem countNone_set (a : AlignVec) (i : Nat) (x : Nat)
    (h : a.get? i = some none) : countNone a = countNone (a.set i (some x)) + 1 := by
  induction a generalizing i with
  | nil => cases h
  | cons y ys ih =>
    cases i with
    | zero =>
      have hy : y = none := by
        have : some y = some (none : Option Nat) := h
        injection this
      subst hy
      rfl
    | succ n =>
      have hih := ih n h
      cases y with
      | none =>
        simp only [List.set, countNone]
        omega
      | some z =>
        simp only [List.set, countNone]
        omega

theorem countNone_zero_get (a : AlignVec) (h : countNone a = 0) (i : Nat) :
    a.get? i ≠ some none := by
  induction a generalizing i with
  | nil => intro hc; cases hc
  | cons y ys ih =>
    cases y with
    | none => simp [countNone] at h
    | some z =>
      cases i with
      | zero =>
        intro hc
        have : some z = (none : Option Nat) := by injection hc
        cases this
      | succ n => exact ih (by simpa [countNone] using h) n

theorem applyRowAt_length (a : AlignVec) (row : List Value) (i : Nat) :
    (applyRowAt a row i).length = a.length := by
  induction row generalizing a i with
  | nil => rfl
  | cons v rest ih =>
    cases hg : a.get? i with
    | none => simp only [applyRowAt, hg, ih]
    | some e =>
      cases e with
      | some z => simp only [applyRowAt, hg, ih]
      | none =>
        by_cases hv : v = Value.null
        · simp only [applyRowAt, hg, if_pos hv, ih]
        · simp only [applyRowAt, hg, if_neg hv, ih, List.length_set]

theorem applyRowsAt_length (a : AlignVec) (rows : List Row) :
    (applyRowsAt a rows).length = a.length := by
  induction rows generalizing a with
  | nil => rfl
  | cons r rs ih =>
    simp only [applyRowsAt]
    rw [ih, applyRowAt_length]

theorem default_left_length (a : AlignVec) (w : Nat) :
    (default_left a w).length = a.length := by
  induction a generalizing w with
  | nil => cases w <;> rfl
  | cons x rest ih =>
    cases w with
    | zero => cases x <;> rfl
    | succ m => cases x <;> simp [default_left, ih]

theorem applyRowAt_zero (a : AlignVec) (row : List Value) (i : Nat)
    (h : countNone a = 0) : applyRowAt a row i = a := by
  induction row generalizing i with
  | nil => rfl
  | cons v rest ih =>
    cases hg : a.get? i with
    | none => simp only [applyRowAt, hg, ih]
    | some e =>
      cases e with
      | some z => simp only [applyRowAt, hg, ih]
      | none => exact absurd hg (countNone_zero_get a h i)

theorem applyRowsAt_zero (a : AlignVec) (rows : List Row)
    (h : countNone a = 0) : applyRowsAt a rows = a := by
  induction rows with
  | nil => rfl
  | cons r rs ih =>
    simp only [applyRowsAt]
    rw [applyRowAt_zero a r 0 h, ih]

theorem default_left_zero (a : AlignVec) (w : Nat)
    (h : countNone a = 0) : default_left a w = a := by
  induction a generalizing w with
  | nil => cases w <;> rfl
  | cons x rest ih =>
    cases w with
    | zero => cases x <;> rfl
    | succ m =>
      cases x with
      | none => simp [countNone] at h
      | some z =>
        simp only [default_left]
        rw [ih m (by simpa [countNone] using h)]

theorem width_le_padded_list {α : Type} (sa : Option (List α)) (w : Nat) (f : α) :
    w ≤ (padded_list sa w f).length := by
  cases sa with
  | none =>
    simp [padded_list, pad_list]
  | some a =>
    by_cases hc : w ≤ a.length
    · simpa [padded_list, hc] using hc
    · simp [padded_list, hc, pad_list]
      omega

theorem scan_row_eq (row : List Value) (i : Nat) (a : AlignVec) (u : Nat)
    (hlen : i + row.length ≤ a.length) (hu : u = countNone a) (hu1 : 1 ≤ u) :
    scan_row row i a u =
      if countNone (applyRowAt a row i) = 0 then .ok (.early (applyRowAt a row i))
      else .ok (.done (applyRowAt a row i) (countNone (applyRowAt a row i))) := by
  induction row generalizing i a u with
  | nil =>
    have hne : ¬ countNone (applyRowAt a [] i) = 0 := by
      simp only [applyRowAt]
      omega
    rw [if_neg hne]
    simp only [applyRowAt, scan_row]
    rw [← hu]
  | cons v rest ih =>
    have hi : i < a.length := by
      simp only [List.length_cons] at hlen
      omega
    obtain ⟨e, hg⟩ : ∃ e, a.get? i = some e := by
      cases hg2 : a.get? i with
      | none =>
        have := List.get?_eq_none.mp hg2
        omega
      | some e => exact ⟨e, rfl⟩
    have hlen2 : (i + 1) + rest.length ≤ a.length := by
      simp only [List.length_cons] at hlen
      omega
    cases e with
    | some z =>
      simp only [scan_row, hg, applyRowAt]
      exact ih (i + 1) a u hlen2 hu hu1
    | none =>
      by_cases hv : v = Value.null
      · simp only [scan_row, hg, if_pos hv, applyRowAt]
        exact ih (i + 1) a u hlen2 hu hu1
      · have hcnt : countNone a = countNone (a.set i (some (alignOf v))) + 1 :=
          countNone_set a i _ hg
        by_cases hu0 : u - 1 = 0
        · have hc2 : countNone (a.set i (some (alignOf v))) = 0 := by omega
          have hA : applyRowAt a (v :: rest) i = a.set i (some (alignOf v)) := by
            simp only [applyRowAt, hg, if_neg hv]
            exact applyRowAt_zero _ rest (i + 1) hc2
          rw [hA, if_pos hc2]
          simp only [scan_row, hg, if_neg hv, if_pos hu0]
        · have hA : applyRowAt a (v :: rest) i
              = applyRowAt (a.set i (some (alignOf v))) rest (i + 1) := by
            simp only [applyRowAt, hg, if_neg hv]
          have hlen3 : (i + 1) + rest.length ≤ (a.set i (some (alignOf v))).length := by
            rw [List.length_set]
            exact hlen2
          have hih := ih (i + 1) (a.set i (some (alignOf v))) (u - 1) hlen3
            (by omega) (by omega)
          simp only [scan_row, hg, if_neg hv, if_neg hu0]
          rw [hA]
          exact hih

theorem scan_rows_eq (rows : List Row) (a : AlignVec) (u width : Nat)
    (hlen : ∀ r ∈ rows, r.length ≤ a.length) (hu : u = countNone a) (hu1 : 1 ≤ u) :
    scan_rows rows a u width = .ok (default_left (applyRowsAt a rows) width) := by
  induction rows generalizing a u with
  | nil => rfl
  | cons r rs ih =>
    have hr0 : 0 + r.length ≤ a.length := by
      simpa using hlen r (by simp)
    have hrow := scan_row_eq r 0 a u hr0 hu hu1
    by_cases hz : countNone (applyRowAt a r 0) = 0
    · rw [if_pos hz] at hrow
      simp only [scan_rows, hrow]
      have h1 : applyRowsAt a (r :: rs) = applyRowAt a r 0 := by
        simp only [applyRowsAt]
        exact applyRowsAt_zero _ rs hz
      rw [h1, default_left_zero _ width hz]
    · rw [if_neg hz] at hrow
      simp only [scan_rows, hrow]
      have hih := ih (applyRowAt a r 0) (countNone (applyRowAt a r 0))
        (fun r2 hr2 => by rw [applyRowAt_length]; exact hlen r2 (by simp [hr2]))
        rfl (Nat.one_le_iff_ne_zero.mpr hz)
      rw [hih]
      rfl

theorem applyRowAt_get_lt (a : AlignVec) (row : List Value) (i j : Nat) (h : j < i) :
    (applyRowAt a row i).get? j = a.get? j := by
  induction row generalizing a i with
  | nil => rfl
  | cons v rest ih =>
    cases hg : a.get? i with
    | none =>
      simp only [applyRowAt, hg]
      exact ih a (i + 1) (by omega)
    | some e =>
      cases e with
      | some z =>
        simp only [applyRowAt, hg]
        exact ih a (i + 1) (by omega)
      | none =>
        by_cases hv : v = Value.null
        · simp only [applyRowAt, hg, if_pos hv]
          exact ih a (i + 1) (by omega)
        · simp only [applyRowAt, hg, if_neg hv]
          rw [ih (a.set i (some (alignOf v))) (i + 1) (by omega)]
          exact get?_set_ne a i j _ (by omega)

theorem applyRowAt_get_some (a : AlignVec) (row : List Value) (i j x : Nat)
    (h : a.get? j = some (some x)) :
    (applyRowAt a row i).get? j = some (some x) := by
  induction row generalizing a i with
  | nil => exact h
  | cons v rest ih =>
    cases hg : a.get? i with
    | none =>
      simp only [applyRowAt, hg]
      exact ih a (i + 1) h
    | some e =>
      cases e with
      | some z =>
        simp only [applyRowAt, hg]
        exact ih a (i + 1) h
      | none =>
        by_cases hv : v = Value.null
        · simp only [applyRowAt, hg, if_pos hv]
          exact ih a (i + 1) h
        · have hij : i ≠ j := by
            intro he
            subst he
            rw [hg] at h
            have : (none : Option Nat) = some x := by injection h
            cases this
          simp only [applyRowAt, hg, if_neg hv]
          exact ih (a.set i _) (i + 1) (by rw [get?_set_ne a i j _ hij]; exact h)

theorem applyRowAt_get_unset (row : List Value) (a : AlignVec) (i k : Nat)
    (h : a.get? (i + k) = some none) :
    (applyRowAt a row i).get? (i + k) =
      match row.get? k with
      | some v => if v = Value.null then some none else some (some (alignOf v))
      | none => some none := by
  induction row generalizing a i k with
  | nil =>
    simpa [applyRowAt] using h
  | cons v rest ih =>
    cases k with
    | zero =>
      have hg : a.get? i = some none := by simpa using h
      have hilen : i < a.length := lt_length_of_get?_some hg
      by_cases hv : v = Value.null
      · simp only [applyRowAt, hg, if_pos hv]
        rw [applyRowAt_get_lt a rest (i + 1) (i + 0) (by omega)]
        simpa [hv] using h
      · simp only [applyRowAt, hg, if_neg hv]
        rw [applyRowAt_get_lt _ rest (i + 1) (i + 0) (by omega)]
        rw [Nat.add_zero, get?_set_self a i _ hilen]
        simp [hv]
    | succ k2 =>
      have harith : i + (k2 + 1) = (i + 1) + k2 := by omega
      rw [harith] at h ⊢
      have hgoal : ∀ A : AlignVec, A.get? ((i + 1) + k2) = some none →
          (applyRowAt A rest (i + 1)).get? ((i + 1) + k2) =
            match rest.get? k2 with
            | some w => if w = Value.null then some none else some (some (alignOf w))
            | none => some none := fun A hA => ih A (i + 1) k2 hA
      cases hg : a.get? i with
      | none =>
        simp only [applyRowAt, hg]
        exact hgoal a h
      | some e =>
        cases e with
        | some z =>
          simp only [applyRowAt, hg]
          exact hgoal a h
        | none =>
          by_cases hv : v = Value.null
          · simp only [applyRowAt, hg, if_pos hv]
            exact hgoal a h
          · simp only [applyRowAt, hg, if_neg hv]
            exact hgoal (a.set i _)
              (by rw [get?_set_ne a i _ _ (by omega)]; exact h)

theorem applyRowsAt_get_some (rows : List Row) (a : AlignVec) (j x : Nat)
    (h : a.get? j = some (some x)) :
    (applyRowsAt a rows).get? j = some (some x) := by
  induction rows generalizing a with
  | nil => exact h
  | cons r rs ih => exact ih _ (applyRowAt_get_some a r 0 j x h)

theorem applyRowsAt_get_unset (rows : List Row) (a : AlignVec) (j : Nat)
    (h : a.get? j = some none) :
    (applyRowsAt a rows).get? j =
      match firstNonHole rows j with
      | some v => some (some (alignOf v))
      | none => some none := by
  induction rows generalizing a with
  | nil => simpa [applyRowsAt, firstNonHole] using h
  | cons r rs ih =>
    have hrow := applyRowAt_get_unset r a 0 j (by simpa using h)
    rw [Nat.zero_add] at hrow
    cases hrj : r.get? j with
    | none =>
      simp only [hrj] at hrow
      simp only [applyRowsAt, firstNonHole, hrj]
      exact ih (applyRowAt a r 0) hrow
    | some v =>
      simp only [hrj] at hrow
      by_cases hv : v = Value.null
      · rw [if_pos hv] at hrow
        simp only [applyRowsAt, firstNonHole, hrj, if_pos hv]
        exact ih _ hrow
      · rw [if_neg hv] at hrow
        simp only [applyRowsAt, firstNonHole, hrj, if_neg hv]
        exact applyRowsAt_get_some rs _ j _ hrow

theorem default_left_get (a : AlignVec) (w j : Nat) :
    (default_left a w).get? j =
      if j < w then
        (match a.get? j with
          | some none => some (some ALIGN_LEFT)
          | o => o)
      else a.get? j := by
  induction a generalizing w j with
  | nil =>
    cases w with
    | zero => simp [default_left]
    | succ m => by_cases hj : j < m + 1 <;> simp [default_left, hj]
  | cons x rest ih =>
    cases w with
    | zero => cases x <;> simp [default_left]
    | succ m =>
      cases x with
      | none =>
        cases j with
        | zero => simp [default_left]
        | succ n =>
          simp only [default_left, List.get?]
          rw [ih m n]
          by_cases hn : n < m <;> simp [hn, Nat.succ_lt_succ_iff]
      | some y =>
        cases j with
        | zero => simp [default_left]
        | succ n =>
          simp only [default_left, List.get?]
          rw [ih m n]
          by_cases hn : n < m <;> simp [hn, Nat.succ_lt_succ_iff]

theorem firstNonHole_ge (rows : List Row) (width j : Nat)
    (hrows : ∀ r ∈ rows, r.length ≤ width) (hj : width ≤ j) :
    firstNonHole rows j = none := by
  induction rows with
  | nil => rfl
  | cons r rs ih =>
    have hr : r.get? j = none :=
      List.get?_eq_none.mpr (le_trans (hrows r (by simp)) hj)
    simp only [firstNonHole, hr]
    exact ih (fun r2 h2 => hrows r2 (by simp [h2]))

/-! ### Claim theorems -/

/-- C1: the spec claims `HtmlTable.format` runs the same width/alignment
pipeline as the text renderer and that with headers Name/Size, rows
alpha/10 and b/2000 and no explicit alignment, each data row's second
`<td>` carries the right-alignment class.  Evaluating the source at that
input shows `format` never invokes the alignment inference: every `<th>`
and `<td>` is emitted without any class attribute. -/
theorem html_format_emits_no_alignment_class :
    html_format ⟨some [Value.str "Name", Value.str "Size"], none⟩
        [[Value.str "alpha", Value.int 10], [Value.str "b", Value.int 2000]]
      = .ok ("<table>\n<tr><th>Name</th><th>Size</th></tr>\n" ++
          "<tr><td>alpha</td><td>10</td></tr>\n<tr><td>b</td><td>2000</td></tr>" ++
          "\n</table>") := by
  rfl

/-- C2: the spec claims `row_width` returns the smallest length seen among
headers and rows as `min_width`.  With no headers and rows of lengths 2
then 1 the source returns `min_width = 2`, because the loop takes the
minimum against the running maximum (which never decreases after the
first row) instead of against the row's own length. -/
theorem row_width_min_ignores_later_short_rows :
    row_width none [[Value.int 1, Value.int 2], [Value.int 3]] = (2, 2) ∧
      List.map List.length [[Value.int 1, Value.int 2], [Value.int 3]] = [2, 1] :=
  ⟨rfl, rfl⟩

/-- C3: the spec claims `find_alignments` never changes the stored
alignment vector.  When the stored vector `[None, None]` is already as
long as the width, `padded` returns it by reference and the scan writes
the inferred alignments straight into it: after the call the stored
vector is `[RIGHT, LEFT]`. -/
theorem find_alignments_mutates_stored_vector :
    (find_alignments (some [none, none]) [[Value.int 5, Value.str "a"]] 2).store
        = some [some ALIGN_RIGHT, some ALIGN_LEFT] ∧
      (some [some ALIGN_RIGHT, some ALIGN_LEFT] : Option AlignVec) ≠ some [none, none] :=
  ⟨rfl, by decide⟩

/-- C4: the spec claims the list-of-objects adapter fails fast with a
descriptive error on an empty list when inferring columns.  The source's
`infer_keys` executes `data = data[0]` unguarded, so the call raises a
bare `IndexError` (an out-of-range access), not a descriptive
precondition error. -/
theorem list_to_table_empty_raises_index_error :
    list_to_table ([] : List Obj) none = .error PyErr.indexError := by
  rfl

/-- C6 counterexample: the spec claims the style block is emitted at most
once per process lifetime.  The guarding flag is an instance attribute of
`Display`, so a process that creates two `Display` instances and activates
HTML mode on each emits the style block twice. -/
theorem styles_emitted_twice_across_instances :
    (prun [POp.newDisplay, POp.htmlOp 0, POp.newDisplay, POp.htmlOp 1]).emitted = 2 := by
  rfl

/-- C6 amended: the styles flag is per `Display` instance: starting from a
fresh instance, any sequence of `text()`/`html()` mode activations emits
the style block at most once. -/
theorem styles_emitted_at_most_once_per_instance (ops : List DOp) :
    (drun ops display_init).2 ≤ 1 := by
  have h := drun_emits_le ops display_init
  simpa [display_init] using h

/-- C7: after the padding stage with the width computed by `row_width`,
every padded row, and the padded header sequence when one is produced,
has exactly the table width `max(header length, max row length)`; rows
are only extended with holes (never truncated) and headers keep at least
their original length. -/
theorem padding_width_invariant (sh : Option (List Value)) (rows : List Row)
    (width : Nat) (hw : width = (row_width sh rows).2) :
    width = max (headerLen sh) (maxRowLen rows) ∧
    pad_rows rows width
      = rows.map (fun r => r ++ List.replicate (width - r.length) Value.null) ∧
    (pad_rows rows width).all (fun r => decide (r.length = width)) = true ∧
    header_width_ok (pad_headers sh width) width (headerLen sh) = true := by
  have hwmax : width = max (headerLen sh) (maxRowLen rows) := by
    rw [hw, row_width_snd]
  have hrow : ∀ r ∈ rows, r.length ≤ width := by
    intro r hr
    rw [hwmax]
    exact Nat.le_trans (length_le_maxRowLen hr) (Nat.le_max_right _ _)
  have hmap : pad_rows rows width
      = rows.map (fun r => r ++ List.replicate (width - r.length) Value.null) := by
    unfold pad_rows
    exact map_congr_mem _ _ _ (fun r hr => padded_some_of_le r width Value.null (hrow r hr))
  refine ⟨hwmax, hmap, ?_, ?_⟩
  · rw [hmap, List.all_eq_true]
    intro r hr
    rcases List.mem_map.mp hr with ⟨r0, hr0, hrEq⟩
    subst hrEq
    have := hrow r0 hr0
    simp only [List.length_append, List.length_replicate, decide_eq_true_eq]
    omega
  · cases sh with
    | none => rfl
    | some hs =>
      have hhl : hs.length ≤ width := by
        rw [hwmax]
        exact Nat.le_max_left _ _
      have hl2 : (if has_null hs then
          hs.map (fun v => match v with | .null => Value.str "" | _ => v)
          else hs).length = hs.length := by
        by_cases hn : has_null hs <;> simp [hn]
      simp only [pad_headers]
      by_cases h0 : hs.length = 0
      · rw [if_pos h0]
        rfl
      · rw [if_neg h0]
        by_cases href : width ≤ hs.length ∧ has_null hs = false
        · rw [if_pos href]
          have heq : hs.length = width := Nat.le_antisymm hhl href.1
          simp [header_width_ok, headerLen, heq]
        · rw [if_neg href]
          have hpl := pad_list_length (if has_null hs then
              hs.map (fun v => match v with | .null => Value.str "" | _ => v)
              else hs) width (Value.str "") (by rw [hl2]; exact hhl)
          simp only [header_width_ok, headerLen, Bool.and_eq_true, decide_eq_true_eq]
          exact ⟨hpl, by rw [hpl]; exact hhl⟩

/-- C7 witness: the padding invariant at headers `["H"]` and one row of
two cells, where the computed width is 2. -/
theorem padding_width_invariant_witness :
    (2 = (row_width (some [Value.str "H"]) [[Value.int 1, Value.int 2]]).2) ∧
    (2 = max (headerLen (some [Value.str "H"])) (maxRowLen [[Value.int 1, Value.int 2]]) ∧
     pad_rows [[Value.int 1, Value.int 2]] 2
       = [[Value.int 1, Value.int 2]].map
           (fun r => r ++ List.replicate (2 - r.length) Value.null) ∧
     (pad_rows [[Value.int 1, Value.int 2]] 2).all (fun r => decide (r.length = 2)) = true ∧
     header_width_ok (pad_headers (some [Value.str "H"]) 2) 2
       (headerLen (some [Value.str "H"])) = true) :=
  ⟨rfl, padding_width_invariant (some [Value.str "H"]) [[Value.int 1, Value.int 2]] 2 rfl⟩

/-- C8: `pad` appends `fill` to the list at its argument reference until
the width is reached (a no-op when the length is already at least the
width) and returns that same reference; `padded` never changes the list
at its input reference, treats a `None` input as an empty sequence, and
returns a reference to a list of length at least the width. -/
theorem pad_padded_mutation_contract {α : Type} (h : List (List α)) (r width : Nat)
    (fill : α) (hr : r < h.length) :
    (pyPad h r width fill).2 = r ∧
    store_get (pyPad h r width fill).1 r
      = store_get h r ++ List.replicate (width - (store_get h r).length) fill ∧
    (width ≤ (store_get h r).length → (pyPad h r width fill).1 = h) ∧
    store_get (pyPadded h (some r) width fill).1 r = store_get h r ∧
    width ≤ (store_get (pyPadded h (some r) width fill).1
        (pyPadded h (some r) width fill).2).length ∧
    store_get (pyPadded h none width fill).1 (pyPadded h none width fill).2
      = List.replicate width fill := by
  refine ⟨rfl, ?_, ?_, ?_, ?_, ?_⟩
  · simp only [pyPad]
    unfold store_get
    rw [get?_set_self _ _ _ hr]
    rfl
  · intro hwle
    simp only [pyPad]
    have hz : width - (store_get h r).length = 0 := Nat.sub_eq_zero_of_le hwle
    unfold pad_list
    rw [hz]
    simp only [List.replicate, List.append_nil]
    exact set_store_get_self h r hr
  · simp only [pyPadded]
    by_cases hc : width ≤ (store_get h r).length
    · rw [if_pos hc]
    · rw [if_neg hc]
      unfold store_get
      rw [List.get?_append hr]
  · simp only [pyPadded]
    by_cases hc : width ≤ (store_get h r).length
    · rw [if_pos hc]
      exact hc
    · rw [if_neg hc]
      unfold store_get
      rw [List.get?_concat_length]
      show width ≤ (pad_list _ width fill).length
      unfold pad_list
      simp only [List.length_append, List.length_replicate]
      omega
  · simp only [pyPadded]
    unfold store_get
    rw [List.get?_concat_length]
    show (pad_list [] width fill : List α) = _
    unfold pad_list
    simp

/-- C8 witness: the padding contract on the store holding the single
list `[1]`, at width 3 with fill 7. -/
theorem pad_padded_mutation_contract_witness :
    (0 < ([[1]] : List (List Nat)).length) ∧
    ((pyPad ([[1]] : List (List Nat)) 0 3 7).2 = 0 ∧
     store_get (pyPad ([[1]] : List (List Nat)) 0 3 7).1 0
       = store_get ([[1]] : List (List Nat)) 0
           ++ List.replicate (3 - (store_get ([[1]] : List (List Nat)) 0).length) 7 ∧
     (3 ≤ (store_get ([[1]] : List (List Nat)) 0).length →
       (pyPad ([[1]] : List (List Nat)) 0 3 7).1 = [[1]]) ∧
     store_get (pyPadded ([[1]] : List (List Nat)) (some 0) 3 7).1 0
       = store_get ([[1]] : List (List Nat)) 0 ∧
     3 ≤ (store_get (pyPadded ([[1]] : List (List Nat)) (some 0) 3 7).1
         (pyPadded ([[1]] : List (List Nat)) (some 0) 3 7).2).length ∧
     store_get (pyPadded ([[1]] : List (List Nat)) none 3 7).1
         (pyPadded ([[1]] : List (List Nat)) none 3 7).2
       = List.replicate 3 7) :=
  ⟨by decide, pad_padded_mutation_contract [[1]] 0 3 7 (by decide)⟩

/-- C10: provided the stored alignment codes are in range,
`HtmlTable.format` succeeds exactly when every non-hole header entry is a
string: a non-string present header value makes `gen_header` raise
`TypeError` (bare string concatenation), while data cells of every scalar
type always render via natural string conversion (holes as the empty
string), so rows never cause a failure. -/
theorem html_format_ok_iff_headers_str (st : HtmlState) (rows : List Row)
    (hal : align_entries_ok st.align = true) :
    except_ok (html_format st rows) = headers_all_str st.headers := by
  obtain ⟨b, hb⟩ := gen_rows_ok st.align hal (pad_rows rows (row_width st.headers rows).2)
  cases hph : pad_headers st.headers (row_width st.headers rows).2 with
  | none =>
    rw [pad_headers_eq_none _ _ hph]
    simp only [html_format, hph, gen_header, hb, except_ok]
  | some ph =>
    have hne := pad_headers_ne_nil _ _ _ hph
    rw [← pad_headers_all _ _ _ hph]
    have hloop := gen_header_loop_all st.align hal ph 0
    cases hl : gen_header_loop st.align ph 0 with
    | error e =>
      rw [hl] at hloop
      simp only [except_ok] at hloop
      simp only [html_format, hph, gen_header, if_neg hne, hl, except_ok]
      exact hloop
    | ok hdr =>
      rw [hl] at hloop
      simp only [except_ok] at hloop
      simp only [html_format, hph, gen_header, if_neg hne, hl, hb, except_ok]
      exact hloop

/-- C10 witness: with an in-range (absent) alignment vector, a one-string
header and a row holding an int, a bool and a hole, `format` succeeds and
the equivalence evaluates on both sides. -/
theorem html_format_ok_iff_headers_str_witness :
    align_entries_ok (none : Option AlignVec) = true ∧
    except_ok (html_format ⟨some [Value.str "A"], none⟩
        [[Value.int 7, Value.bool true, Value.null]])
      = headers_all_str (some [Value.str "A"]) :=
  ⟨rfl, html_format_ok_iff_headers_str ⟨some [Value.str "A"], none⟩
    [[Value.int 7, Value.bool true, Value.null]] rfl⟩

/-- C5: when no row is longer than the width, `find_alignments` succeeds
and resolves every column as the spec states: an explicit stored entry
wins; otherwise the first non-hole value scanning rows top to bottom
decides (string gives LEFT, any other present value gives RIGHT); an
all-holes column defaults to LEFT (`spec_result`/`inferSpec` are that
spec-side description). -/
theorem find_alignments_first_non_hole (sa : Option AlignVec) (rows : List Row)
    (width : Nat) (h : maxRowLen rows ≤ width) :
    (find_alignments sa rows width).result = .ok (spec_result sa rows width) := by
  set a0 : AlignVec := padded_list sa width (none : Option Nat) with ha0
  have hw : width ≤ a0.length := by
    rw [ha0]
    exact width_le_padded_list sa width none
  have hrow : ∀ r ∈ rows, r.length ≤ width :=
    fun r hr => le_trans (length_le_maxRowLen hr) h
  have hrlen : ∀ r ∈ rows, r.length ≤ a0.length :=
    fun r hr => le_trans (hrow r hr) hw
  have hkey : default_left (applyRowsAt a0 rows) width = spec_result sa rows width := by
    apply List.ext_get?_iff.mpr
    intro j
    by_cases hj : j < a0.length
    · obtain ⟨e, hg⟩ : ∃ e, a0.get? j = some e := by
        cases hgx : a0.get? j with
        | none =>
          have := List.get?_eq_none.mp hgx
          omega
        | some e => exact ⟨e, rfl⟩
      have hrhs : (spec_result sa rows width).get? j
          = some (if j < width then some (inferSpec sa rows width j)
              else (a0.get? j).getD none) := by
        simp only [spec_result]
        rw [← ha0, List.get?_map, List.get?_range hj]
        rfl
      cases e with
      | some x =>
        have hL1 : (applyRowsAt a0 rows).get? j = some (some x) :=
          applyRowsAt_get_some rows a0 j x hg
        have hL : (default_left (applyRowsAt a0 rows) width).get? j = some (some x) := by
          rw [default_left_get, hL1]
          by_cases hjw : j < width <;> simp [hjw]
        rw [hL, hrhs]
        by_cases hjw : j < width
        · rw [if_pos hjw]
          have hspec : inferSpec sa rows width j = x := by
            simp only [inferSpec]
            rw [← ha0, hg]
          rw [hspec]
        · rw [if_neg hjw, hg]
          rfl
      | none =>
        have hL1 := applyRowsAt_get_unset rows a0 j hg
        cases hfnh : firstNonHole rows j with
        | some v =>
          simp only [hfnh] at hL1
          have hjw : j < width := by
            by_contra hge
            rw [firstNonHole_ge rows width j hrow (by omega)] at hfnh
            cases hfnh
          have hL : (default_left (applyRowsAt a0 rows) width).get? j
              = some (some (alignOf v)) := by
            rw [default_left_get, hL1]
            simp [hjw]
          rw [hL, hrhs, if_pos hjw]
          have hspec : inferSpec sa rows width j = alignOf v := by
            simp only [inferSpec]
            rw [← ha0, hg, hfnh]
          rw [hspec]
        | none =>
          simp only [hfnh] at hL1
          by_cases hjw : j < width
          · have hL : (default_left (applyRowsAt a0 rows) width).get? j
                = some (some ALIGN_LEFT) := by
              rw [default_left_get, hL1]
              simp [hjw]
            rw [hL, hrhs, if_pos hjw]
            have hspec : inferSpec sa rows width j = ALIGN_LEFT := by
              simp only [inferSpec]
              rw [← ha0, hg, hfnh]
            rw [hspec]
          · have hL : (default_left (applyRowsAt a0 rows) width).get? j = some none := by
              rw [default_left_get, hL1]
              simp [hjw]
            rw [hL, hrhs, if_neg hjw, hg]
            rfl
    · have hL : (default_left (applyRowsAt a0 rows) width).get? j = none := by
        rw [List.get?_eq_none, default_left_length, applyRowsAt_length]
        omega
      have hR : (spec_result sa rows width).get? j = none := by
        rw [List.get?_eq_none]
        simp only [spec_result]
        rw [← ha0]
        simp only [List.length_map, List.length_range]
        omega
      rw [hL, hR]
  by_cases hu : countNone a0 = 0
  · have hspec0 : spec_result sa rows width = a0 := by
      rw [← hkey, applyRowsAt_zero a0 rows hu, default_left_zero a0 width hu]
    simp only [find_alignments]
    rw [← ha0, if_pos hu, hspec0]
  · have hscan := scan_rows_eq rows a0 (countNone a0) width hrlen rfl
      (Nat.one_le_iff_ne_zero.mpr hu)
    simp only [find_alignments]
    rw [← ha0, if_neg hu, hscan, hkey]

/-- C5 witness: rows `[[None, "a"], [5, None]]` with no stored alignment
at width 2: the call succeeds, column 0 resolves to RIGHT (from the
second row's 5) and column 1 to LEFT (from the first row's "a"). -/
theorem find_alignments_first_non_hole_witness :
    maxRowLen [[Value.null, Value.str "a"], [Value.int 5, Value.null]] ≤ 2 ∧
    (find_alignments none [[Value.null, Value.str "a"], [Value.int 5, Value.null]] 2).result
      = .ok (spec_result none [[Value.null, Value.str "a"], [Value.int 5, Value.null]] 2) ∧
    spec_result none [[Value.null, Value.str "a"], [Value.int 5, Value.null]] 2
      = [some ALIGN_RIGHT, some ALIGN_LEFT] :=
  ⟨by decide,
   find_alignments_first_non_hole none
     [[Value.null, Value.str "a"], [Value.int 5, Value.null]] 2 (by decide),
   by rfl⟩

/-- C9: `find_alignments` iterates each row's full length, not the table
width: with no stored alignment, rows `[[None, None, 3]]` and width 2 the
scan reads `align[2]` out of range and raises `IndexError` instead of
returning a vector. -/
theorem find_alignments_long_row_index_error :
    (find_alignments none [[Value.null, Value.null, Value.int 3]] 2).result
      = .error PyErr.indexError := by
  rfl

end Polaris
